import Mathlib

/-!
# Verification of the H2O kernel core against its specification

Shallow embedding of the parts of the H2O microkernel (oceanic-os) that the
frozen claims are about:

* the per-task handle map (`src/h2o/kernel/src/sched/task/hdl.rs`),
* the per-CPU scheduler push / signal paths (`src/h2o/kernel/src/sched/sched.rs`),
* task creation (`src/h2o/kernel/src/sched/task.rs`),
* address-space deallocation (`src/h2o/kernel/src/mem/space.rs`),
* clock selection and TSC calibration (`src/h2o/kernel/src/cpu/time/chip.rs`,
  `src/h2o/kernel/src/cpu/x86_64/tsc.rs`).

Machine integers are modelled as `Nat` with explicit reduction modulo `2 ^ w`
where overflow matters.  Fallible operations return `Except`.
-/

namespace Hdl

/-- Error codes of `sv_call` relevant to the handle map. -/
inductive Error where
  | EINVAL
  | ERANGE
  | EPERM
deriving DecidableEq, Repr

/-- Bit layout of the `Value` bitfield in `hdl.rs` lines 19-23.

`modular_bitfield` packs fields starting at the least significant bit, so the
first field `gen: B14` occupies bits `0..14` and the second field `index: B18`
occupies bits `14..32`.  The setters truncate `gen` to 14 bits; `index` is
range-checked by the caller (`with_index_checked`). -/
def mkValue (gen index : Nat) : Nat :=
  gen % 2 ^ 14 + index % 2 ^ 18 * 2 ^ 14

/-- Field accessor `Value::gen`: bits `0..14`. -/
def valueGen (v : Nat) : Nat := v % 2 ^ 14

/-- Field accessor `Value::index`: bits `14..32`. -/
def valueIndex (v : Nat) : Nat := v / 2 ^ 14 % 2 ^ 18

/-- A per-task handle map: the random `mix` (a `u32`) and the arena.

Modelled from the spec: the slab arena itself lives in `sched/task/hdl/node.rs`,
which is absent from the tree; the spec (§4.6) describes it as a per-task slab
of objects indexed by the handle's index field.  Only liveness of each slot
matters here, so the arena is a list of liveness bits. -/
structure HandleMap where
  mix : Nat
  arena : List Bool
deriving DecidableEq, Repr

/-- Modelled from the spec: `node::decode` (file `sched/task/hdl/node.rs` absent
from the tree): "`decode(handle) → ptr`: reverses the XOR, validates the index
lies in the arena", and "decoding any handle either yields a live object
reference or `EINVAL`".  The returned arena pointer is represented by its slot
index. -/
def nodeDecode (arena : List Bool) (index : Nat) : Except Error Nat :=
  if arena.getD index false then .ok index else .error .EINVAL

/-- Modelled from the spec: `node::encode` (absent from the tree) maps an arena
pointer back to the slot index it points at. -/
def nodeEncode (ptr : Nat) : Except Error Nat := .ok ptr

/-- From `HandleMap::decode`, `hdl.rs` lines 52-59: XOR the raw handle with the
per-task `mix`, reinterpret as a `Value` (the `gen` field is read and
discarded), and decode the `index` field through the arena. -/
def decode (m : HandleMap) (handle : Nat) : Except Error Nat :=
  let value := handle ^^^ m.mix
  nodeDecode m.arena (valueIndex value)

/-- From `HandleMap::encode`, `hdl.rs` lines 79-89: recover the arena index from the
pointer, build a `Value` with `gen = 0` (`ERANGE` if the index exceeds 18
bits), and XOR with the per-task `mix`. -/
def encode (m : HandleMap) (ptr : Nat) : Except Error Nat :=
  match nodeEncode ptr with
  | .error e => .error e
  | .ok index =>
    if index < 2 ^ 18 then
      .ok (mkValue 0 index ^^^ m.mix)
    else
      .error .ERANGE

theorem nodeDecode_live (arena : List Bool) (idx : Nat)
    (h : arena.getD idx false = true) : nodeDecode arena idx = .ok idx := by
  unfold nodeDecode
  rw [h]
  simp

theorem encode_ok (m : HandleMap) (idx : Nat) (h : idx < 2 ^ 18) :
    encode m idx = .ok (mkValue 0 idx ^^^ m.mix) := by
  simp only [encode, nodeEncode]
  rw [if_pos h]

theorem mkValue_zero (index : Nat) (h : index < 2 ^ 18) :
    mkValue 0 index = index * 2 ^ 14 := by
  simp only [mkValue]
  omega

theorem valueIndex_mkValue_zero (index : Nat) (h : index < 2 ^ 18) :
    valueIndex (mkValue 0 index) = index := by
  rw [mkValue_zero index h]
  simp only [valueIndex]
  omega

/-- C3 — For every live handle in a task's handle map (that is, every handle
the map has issued: XOR of the `gen = 0` encoding of a live arena index with
the map's mix), decoding yields the arena pointer and re-encoding that pointer
yields the very same handle value: `encode (decode h) = h`. -/
theorem handle_roundtrip (m : HandleMap) (idx : Nat)
    (hidx : idx < 2 ^ 18) (hlive : m.arena.getD idx false = true)
    (h : Nat) (hh : h = mkValue 0 idx ^^^ m.mix) :
    decode m h = .ok idx ∧ encode m idx = .ok h := by
  subst hh
  constructor
  · show nodeDecode m.arena (valueIndex (mkValue 0 idx ^^^ m.mix ^^^ m.mix)) = _
    rw [Nat.xor_cancel_right, valueIndex_mkValue_zero idx hidx]
    exact nodeDecode_live m.arena idx hlive
  · exact encode_ok m idx hidx

/-- Witness for C3 at a concrete map: mix `0xdeadbeef`, arena with slot 2
live. -/
theorem handle_roundtrip_witness :
    decode ⟨0xdeadbeef, [false, false, true]⟩
        (mkValue 0 2 ^^^ 0xdeadbeef) = .ok 2 ∧
      encode ⟨0xdeadbeef, [false, false, true]⟩ 2 =
        .ok (mkValue 0 2 ^^^ 0xdeadbeef) :=
  handle_roundtrip ⟨0xdeadbeef, [false, false, true]⟩ 2
    (by decide) (by decide) _ rfl

/-- C2 counterexample — the claim "the low 18 bits of the (unmixed) handle
value are the per-task arena index and the top 14 bits are the generation" is
false on the code: with `mix = 0` and a handle issued for arena index `1`, the
raw handle value is `mkValue 0 1 = 16384`; it decodes to arena index `1`, yet
its low 18 bits equal `16384 ≠ 1`. -/
theorem handle_layout_counterexample :
    encode ⟨0, [false, true]⟩ 1 = .ok 16384 ∧
      decode ⟨0, [false, true]⟩ 16384 = .ok 1 ∧
      ¬ 16384 % 2 ^ 18 = 1 :=
  ⟨rfl, rfl, by decide⟩

/-- C2 amended — after undoing the XOR with the per-task mix, the LOW 14 bits
of the 32-bit handle value are the generation and the TOP 18 bits (bits
14..31) are the per-task arena index (`modular_bitfield` packs the first
declared field `gen: B14` into the least significant bits): a handle issued
for live arena index `idx` unmixes to a value whose low 14 bits are `0` (the
generation as encoded) and whose bits 14..31 are `idx`, and decoding extracts
exactly those top bits. -/
theorem handle_layout (m : HandleMap) (idx : Nat)
    (hidx : idx < 2 ^ 18) (hlive : m.arena.getD idx false = true) :
    ∃ h, encode m idx = .ok h ∧
      valueGen (h ^^^ m.mix) = 0 ∧
      valueIndex (h ^^^ m.mix) = idx ∧
      (h ^^^ m.mix) / 2 ^ 14 = idx ∧
      decode m h = .ok idx := by
  refine ⟨mkValue 0 idx ^^^ m.mix, encode_ok m idx hidx, ?_⟩
  rw [Nat.xor_cancel_right]
  refine ⟨?_, valueIndex_mkValue_zero idx hidx, ?_, ?_⟩
  · simp only [valueGen, mkValue_zero idx hidx]
    omega
  · rw [mkValue_zero idx hidx]
    exact Nat.mul_div_cancel idx (by norm_num)
  · show nodeDecode m.arena (valueIndex (mkValue 0 idx ^^^ m.mix ^^^ m.mix)) = _
    rw [Nat.xor_cancel_right, valueIndex_mkValue_zero idx hidx]
    exact nodeDecode_live m.arena idx hlive

/-- Witness for the amended C2 at a concrete map: mix `5`, arena slot 3
live. -/
theorem handle_layout_witness :
    ∃ h, encode ⟨5, [false, false, false, true]⟩ 3 = .ok h ∧
      valueGen (h ^^^ 5) = 0 ∧
      valueIndex (h ^^^ 5) = 3 ∧
      (h ^^^ 5) / 2 ^ 14 = 3 ∧
      decode ⟨5, [false, false, false, true]⟩ h = .ok 3 :=
  handle_layout ⟨5, [false, false, false, true]⟩ 3 (by decide) (by decide)

end Hdl

namespace Sched

/-- Durations and instants in nanoseconds. -/
abbrev Duration := Nat

/-- From `sched.rs` line 15: the initial time slice, 30 ms. -/
def MINIMUM_TIME_GRANULARITY : Duration := 30000000

/-- From `sched.rs` line 16: the wake-preemption granularity, 1 ms. -/
def WAKE_TIME_GRANULARITY : Duration := 1000000

/-- From `task.rs`: `RunningState` of a `Ready` task. -/
inductive RunningState where
  | NotRunning
  | NeedResched
  | Running (start : Nat)
deriving DecidableEq, Repr

/-- The scheduling-relevant fields of `task::Ready`.  The `runtime` field is
carried by the `Ready` state per spec §3 (the revision of `task.rs` in the
tree predates the field; `sched.rs` reads and compares it). -/
structure Ready where
  tid : Nat
  timeSlice : Duration
  runtime : Duration
  cpu : Nat
  runningState : RunningState
deriving DecidableEq, Repr

/-- The scheduling-relevant fields of `task::Init`: the TID and, through
`task.tid().info().read().affinity()`, the affinity mask (a bit per CPU). -/
structure InitTask where
  tid : Nat
  affinity : List Bool
deriving DecidableEq, Repr

/-- From `task::Ready::from_init`: give the task its CPU and time slice.  A new
task has accumulated no runtime, so `runtime` starts at zero, and
`running_state` is `NotRunning`. -/
def fromInit (t : InitTask) (cpu : Nat) (ts : Duration) : Ready :=
  { tid := t.tid, timeSlice := ts, runtime := 0, cpu := cpu,
    runningState := .NotRunning }

/-- From `affinity.get(cpu).map_or(false, |r| *r)`: bit `cpu` of the mask, `false`
out of range. -/
def affinityGet (affinity : List Bool) (cpu : Nat) : Bool :=
  (affinity.get? cpu).getD false

/-- From `select_cpu`, `sched.rs` lines 330-332: the index of the first set bit of
the affinity mask (`iter_ones().next()`). -/
def select_cpu : List Bool → Option Nat
  | [] => none
  | b :: rest => if b then some 0 else (select_cpu rest).map (· + 1)

/-- From `Scheduler::should_preempt`, `sched.rs` lines 158-161:
`cur.runtime > task.runtime + WAKE_TIME_GRANULARITY`. -/
def should_preempt (cur task : Ready) : Bool :=
  cur.runtime > task.runtime + WAKE_TIME_GRANULARITY

/-- The per-CPU scheduler state touched by `push`: the CPU id, the `current`
slot and the local FIFO run queue (head = next to pop; `push` appends at the
tail). -/
structure SchedState where
  cpu : Nat
  current : Option Ready
  runQueue : List Ready
deriving DecidableEq, Repr

/-- Outcome of `Scheduler::push`:

* `panic`: `select_cpu` returned `None` and `.expect("Zero affinity")` fired;
* `migrate target task`: `task` was pushed onto `MIGRATION_QUEUE[target]` and
  a task-migrate IPI was sent to `target`
  (`crate::cpu::arch::apic::ipi::task_migrate(cpu)`);
* `localQueue s`: the task was enqueued locally, leaving state `s`. -/
inductive PushResult where
  | panic
  | migrate (target : Nat) (task : Ready)
  | localQueue (s : SchedState)
deriving DecidableEq, Repr

/-- From `Scheduler::enqueue`, `sched.rs` lines 67-84: if there is a current task
and `should_preempt`, switch immediately via `schedule_impl` (the new task
becomes current with `Running(now)` and `cpu := self.cpu`; the preempted task
is marked `NotRunning` and pushed onto the FIFO); otherwise push the new task
onto the FIFO tail. -/
def enqueue (s : SchedState) (task : Ready) (now : Nat) : SchedState :=
  match s.current with
  | some cur =>
    if should_preempt cur task then
      { s with
        current := some { task with runningState := .Running now, cpu := s.cpu },
        runQueue := s.runQueue ++ [{ cur with runningState := .NotRunning }] }
    else
      { s with runQueue := s.runQueue ++ [task] }
  | none => { s with runQueue := s.runQueue ++ [task] }

/-- From `Scheduler::push`, `sched.rs` lines 42-65. -/
def push (s : SchedState) (t : InitTask) (now : Nat) : PushResult :=
  let affinity := t.affinity
  let time_slice := MINIMUM_TIME_GRANULARITY
  if ¬ affinityGet affinity s.cpu then
    match select_cpu affinity with
    | none => .panic
    | some cpu => .migrate cpu (fromInit t cpu time_slice)
  else
    .localQueue (enqueue s (fromInit t s.cpu time_slice) now)

theorem affinityGet_nil (cpu : Nat) : affinityGet [] cpu = false := by
  simp [affinityGet]

theorem select_cpu_is_least (a : List Bool) (c : Nat)
    (h : select_cpu a = some c) :
    affinityGet a c = true ∧ ∀ j, j < c → affinityGet a j = false := by
  induction a generalizing c with
  | nil => simp [select_cpu] at h
  | cons b rest ih =>
    by_cases hb : b
    · simp [select_cpu, hb] at h
      subst h
      exact ⟨by simp [affinityGet, hb], fun j hj => absurd hj (Nat.not_lt_zero j)⟩
    · simp [select_cpu, hb] at h
      obtain ⟨c', hc', rfl⟩ := h
      obtain ⟨h1, h2⟩ := ih c' hc'
      refine ⟨h1, fun j hj => ?_⟩
      cases j with
      | zero => simp [affinityGet, hb]
      | succ j' =>
        exact h2 j' (Nat.lt_of_succ_lt_succ hj)

theorem select_cpu_some_of_mem (a : List Bool) (i : Nat)
    (h : affinityGet a i = true) : ∃ c, select_cpu a = some c := by
  induction a generalizing i with
  | nil => simp [affinityGet] at h
  | cons b rest ih =>
    by_cases hb : b
    · exact ⟨0, by simp [select_cpu, hb]⟩
    · cases i with
      | zero => simp [affinityGet, hb] at h
      | succ i' =>
        obtain ⟨c, hc⟩ := ih i' (by simpa [affinityGet] using h)
        exact ⟨c + 1, by simp [select_cpu, hb, hc]⟩

end Sched

namespace Sched

/-- C1 — For every new task pushed to the scheduler: if the affinity mask
excludes the current CPU, the task goes to the migration injector of the
lowest-indexed CPU of the mask and a task-migrate IPI is fired; otherwise it
is enqueued locally, and the local enqueue performs an immediate context
switch (pushing the preempted current task back into the FIFO, marked
`NotRunning`, and installing the new task as current with `Running(now)`)
exactly when the new task's accumulated runtime is lower than the current
task's by more than `WAKE_TIME_GRANULARITY` (1 ms); otherwise the new task is
appended to the FIFO tail. -/
theorem scheduler_push_spec (s : SchedState) (t : InitTask) (now : Nat)
    (hne : ∃ i, affinityGet t.affinity i = true) :
    (affinityGet t.affinity s.cpu = false →
      ∃ c, push s t now = .migrate c (fromInit t c MINIMUM_TIME_GRANULARITY) ∧
        affinityGet t.affinity c = true ∧
        ∀ j, j < c → affinityGet t.affinity j = false) ∧
    (affinityGet t.affinity s.cpu = true →
      (s.current = none →
        push s t now = .localQueue
          { s with runQueue :=
              s.runQueue ++ [fromInit t s.cpu MINIMUM_TIME_GRANULARITY] }) ∧
      (∀ cur, s.current = some cur →
        ((fromInit t s.cpu MINIMUM_TIME_GRANULARITY).runtime +
            WAKE_TIME_GRANULARITY < cur.runtime →
          push s t now = .localQueue
            { s with
              current := some
                { fromInit t s.cpu MINIMUM_TIME_GRANULARITY with
                  runningState := .Running now, cpu := s.cpu },
              runQueue :=
                s.runQueue ++ [{ cur with runningState := .NotRunning }] }) ∧
        (¬ (fromInit t s.cpu MINIMUM_TIME_GRANULARITY).runtime +
            WAKE_TIME_GRANULARITY < cur.runtime →
          push s t now = .localQueue
            { s with runQueue :=
                s.runQueue ++ [fromInit t s.cpu MINIMUM_TIME_GRANULARITY] }))) := by
  constructor
  · intro hexc
    obtain ⟨i, hi⟩ := hne
    obtain ⟨c, hc⟩ := select_cpu_some_of_mem t.affinity i hi
    obtain ⟨h1, h2⟩ := select_cpu_is_least t.affinity c hc
    refine ⟨c, ?_, h1, h2⟩
    simp [push, hexc, hc]
  · intro hinc
    constructor
    · intro hnone
      simp [push, hinc, enqueue, hnone]
    · intro cur hcur
      constructor
      · intro hpre
        simp only [push, hinc, enqueue, hcur]
        simp [should_preempt, hpre]
      · intro hnpre
        simp only [push, hinc, enqueue, hcur]
        simp [should_preempt, hnpre]

/-- Witness for C1: a task with affinity `[true]` pushed on CPU 0 while the
current task has 5 ms of runtime preempts it immediately. -/
theorem scheduler_push_witness :
    push ⟨0, some ⟨7, 30000000, 5000000, 0, .Running 0⟩, []⟩ ⟨9, [true]⟩ 5 =
      .localQueue
        { cpu := 0,
          current := some
            { fromInit ⟨9, [true]⟩ 0 MINIMUM_TIME_GRANULARITY with
              runningState := .Running 5, cpu := 0 },
          runQueue := [{ (⟨7, 30000000, 5000000, 0, .Running 0⟩ : Ready) with
            runningState := .NotRunning }] } :=
  ((((scheduler_push_spec ⟨0, some ⟨7, 30000000, 5000000, 0, .Running 0⟩, []⟩
      ⟨9, [true]⟩ 5 ⟨0, by decide⟩).2 (by decide)).2
      ⟨7, 30000000, 5000000, 0, .Running 0⟩ rfl).1 (by decide))

end Sched

namespace Tasks

/-- From `task::Type`, `task.rs` lines 77-81. -/
inductive Ty where
  | Kernel
  | User
deriving DecidableEq, Repr

/-- From `task::TaskError`, `task.rs` lines 47-57 (payloads elided). -/
inductive TaskError where
  | Permission
  | NotSupported (n : Nat)
  | InvalidFormat
  | Memory
  | NoCurrentTask
  | TidExhausted
  | StackError
  | Other
deriving DecidableEq, Repr

/-- The solvent error codes that `TaskError` maps onto. -/
inductive ErrorCode where
  | EPERM
  | EINVAL
  | ENOMEM
  | ESRCH
  | EFAULT
deriving DecidableEq, Repr

/-- From `impl Into<solvent::Error> for TaskError`, `task.rs` lines 59-73. -/
def errorCode : TaskError → ErrorCode
  | .Permission => .EPERM
  | .NotSupported _ => .EPERM
  | .InvalidFormat => .EINVAL
  | .Memory => .ENOMEM
  | .NoCurrentTask => .ESRCH
  | .TidExhausted => .EFAULT
  | .StackError => .ENOMEM
  | .Other => .EFAULT

/-- The fields of `task::TaskInfo` the claims are about (`task.rs` lines
83-91; the parent link and handle table are elided). -/
structure TaskInfo where
  name : String
  ty : Ty
  affinity : List Bool
  prio : Nat
deriving DecidableEq, Repr

/-- The child-type computation of `create_with_space`, `task.rs` lines
382-391: a requested `Kernel` type silently inherits the creator's type; the
`Permission` arm sits inside the `User` arm under the condition
`ty == Type::Kernel`, which that arm has already excluded. -/
def childTy (requested cur : Ty) : Except TaskError Ty :=
  match requested with
  | .Kernel => .ok cur
  | .User =>
    if requested = Ty.Kernel then
      .error .Permission
    else
      .ok .User

/-- From `create_with_space`, `task.rs` lines 349-408, as far as the claims reach:
the address-space duplication is infallible; `with(&space, with_space)` and
`Init::new` (stack carving and TID allocation) are fallible steps that never
inspect the affinity mask, abstracted as the `spaceRes` and `initRes`
parameters in source order.  The `TaskInfo` is assembled with the child type
from `childTy`, the caller-supplied affinity (no validation), and the
priority clamped to the creator's. -/
def create_with_space (spaceRes : Except TaskError Unit) (name : String)
    (ty : Ty) (affinity : List Bool) (prio : Nat) (cur : TaskInfo)
    (initRes : Except TaskError Unit) : Except TaskError TaskInfo :=
  match spaceRes with
  | .error e => .error e
  | .ok _ =>
    match childTy ty cur.ty with
    | .error e => .error e
    | .ok ty' =>
      match initRes with
      | .error e => .error e
      | .ok _ =>
        .ok { name := name, ty := ty', affinity := affinity,
              prio := min prio cur.prio }

/-- C10 — For every input, a requested `Kernel` type silently inherits the
creator's type instead of being rejected; `TaskError::Permission` is
unreachable, so creation (with the orthogonal fallible steps succeeding)
always returns the assembled task info and never a permission error on
account of the requested type. -/
theorem task_create_kernel_inherits (requested : Ty) (curTi : TaskInfo)
    (name : String) (affinity : List Bool) (prio : Nat) :
    childTy requested curTi.ty =
      .ok (match requested with | .Kernel => curTi.ty | .User => .User) ∧
    create_with_space (.ok ()) name requested affinity prio curTi (.ok ()) =
      .ok { name := name,
            ty := match requested with | .Kernel => curTi.ty | .User => .User,
            affinity := affinity, prio := min prio curTi.prio } := by
  cases requested <;> simp [childTy, create_with_space]

/-- C4 counterexample — a creation request whose affinity mask has no bit set
is NOT rejected with `EINVAL`: it succeeds, and the created task has the
empty affinity mask (refuting both halves of the claim). -/
theorem task_create_empty_affinity_counterexample :
    create_with_space (.ok ()) "task" .User [] 20
        ⟨"ROOT", .User, [true], 20⟩ (.ok ()) =
      .ok { name := "task", ty := .User, affinity := [], prio := 20 } := by
  simp [create_with_space, childTy]

/-- C4 amended — task creation does not validate the affinity mask: a request
with an empty mask succeeds, producing a task whose mask has no bit set, and
pushing such a task to the scheduler panics (`select_cpu(..).expect("Zero
affinity")`) instead of returning `EINVAL`. -/
theorem task_create_empty_affinity (name : String) (prio : Nat)
    (cur : TaskInfo) (s : Sched.SchedState) (t : Sched.InitTask) (now : Nat)
    (haff : t.affinity = []) :
    create_with_space (.ok ()) name .User [] prio cur (.ok ()) =
      .ok { name := name, ty := .User, affinity := [],
            prio := min prio cur.prio } ∧
    Sched.push s t now = .panic := by
  constructor
  · simp [create_with_space, childTy]
  · simp [Sched.push, haff, Sched.affinityGet, Sched.select_cpu]

/-- Witness for the amended C4 at concrete inputs. -/
theorem task_create_empty_affinity_witness :
    create_with_space (.ok ()) "worker" .User [] 20
        ⟨"ROOT", .User, [true], 20⟩ (.ok ()) =
      .ok { name := "worker", ty := .User, affinity := [], prio := 20 } ∧
    Sched.push ⟨0, none, []⟩ ⟨3, []⟩ 0 = .panic :=
  task_create_empty_affinity ("worker") 20 ⟨"ROOT", .User, [true], 20⟩
    ⟨0, none, []⟩ ⟨3, []⟩ 0 rfl

end Tasks

namespace Sched

/-- From `task::sig::Signal`: at most one pending signal per task, `Kill` or
`Suspend(wait_object)`; the wait object is abstracted by an identifier. -/
inductive Signal where
  | Kill
  | Suspend (wo : Nat)
deriving DecidableEq, Repr

/-- The task-info fields read by `Scheduler::check_signal`: the task type and
the pending signal slot. -/
structure SigTaskInfo where
  ty : Tasks.Ty
  signal : Option Signal
deriving DecidableEq, Repr

/-- Modelled from the spec: `TaskInfo::take_signal` (the revision of `task.rs`
carrying it is absent from the tree); spec §4.8: a task may have at most one
pending signal and "on each tick the scheduler consumes it" — the pending
signal is returned and the slot cleared. -/
def takeSignal (ti : SigTaskInfo) : Option Signal × SigTaskInfo :=
  (ti.signal, { ti with signal := none })

/-- What the tick does to the current task as decided by `check_signal`:

* `proceed`: fall through to the time-slice update (`Some(pree)` returned);
* `exitKilled`: `task::Ready::exit(task, (-solvent::EKILLED) as usize)`;
* `block wo`: `task::Ready::block(task, &wo, "task_ctl_suspend")`. -/
inductive TickAction where
  | proceed
  | exitKilled
  | block (wo : Nat)
deriving DecidableEq, Repr

/-- From `Scheduler::check_signal`, `sched.rs` lines 200-238: no current task means
nothing to do; a Kernel-typed current task returns early before
`take_signal`; otherwise the pending signal is consumed and dispatched. -/
def check_signal (cur : Option SigTaskInfo) : Option SigTaskInfo × TickAction :=
  match cur with
  | none => (none, .proceed)
  | some ti =>
    if ti.ty = Tasks.Ty.Kernel then
      (some ti, .proceed)
    else
      match takeSignal ti with
      | (some .Kill, ti') => (some ti', .exitKilled)
      | (some (.Suspend wo), ti') => (some ti', .block wo)
      | (none, ti') => (some ti', .proceed)

/-- C9 — On a tick, a Kernel-typed current task keeps its pending signal
untouched and is neither exited nor blocked; the exit-with-`-EKILLED` and
block paths are taken only for a User-typed current task (with the matching
pending signal). -/
theorem check_signal_kernel_spec (ti : SigTaskInfo) :
    (ti.ty = Tasks.Ty.Kernel → check_signal (some ti) = (some ti, .proceed)) ∧
    ((check_signal (some ti)).2 = .exitKilled →
      ti.ty = Tasks.Ty.User ∧ ti.signal = some .Kill) ∧
    (∀ wo, (check_signal (some ti)).2 = .block wo →
      ti.ty = Tasks.Ty.User ∧ ti.signal = some (.Suspend wo)) := by
  obtain ⟨ty, sig⟩ := ti
  cases ty <;> rcases sig with _ | sg
  · simp [check_signal]
  · simp [check_signal]
  · simp [check_signal, takeSignal]
  · cases sg <;> simp [check_signal, takeSignal]

/-- Witness for C9: a Kernel task with a pending `Kill` survives the tick with
the signal still pending. -/
theorem check_signal_kernel_witness :
    check_signal (some ⟨Tasks.Ty.Kernel, some .Kill⟩) =
      (some ⟨Tasks.Ty.Kernel, some .Kill⟩, .proceed) :=
  (check_signal_kernel_spec ⟨Tasks.Ty.Kernel, some .Kill⟩).1 rfl

end Sched

namespace Clk

/-- The three clock chips of the kernel. -/
inductive ClockSrc where
  | tsc
  | hpet
  | pit
deriving DecidableEq, Repr

/-- From `CLOCK`, `chip.rs` lines 9-15: TSC if its lazy static produced one, else
HPET if present, else PIT.  Only presence matters, so the chips are elided to
`Unit`. -/
def selectClock (tscClock : Option Unit) (hpetClock : Option Unit) : ClockSrc :=
  match tscClock with
  | some _ => .tsc
  | none =>
    match hpetClock with
    | some _ => .hpet
    | none => .pit

/-- From `CALIB_CLOCK`, `chip.rs` lines 17-20: HPET if present, else PIT. -/
def selectCalibClock (hpetClock : Option Unit) : ClockSrc :=
  match hpetClock with
  | some _ => .hpet
  | none => .pit

/-- From `TSC_CLOCK`, `tsc.rs` lines 9-22: the TSC clock is constructed
unconditionally; a non-invariant TSC only logs the warning "The TSC is not
invariant. Ticks will be unreliable." and construction proceeds. -/
def tscClockInit (hasInvariantTsc : Bool) : Option Unit :=
  if ¬ hasInvariantTsc then
    -- log::warn! only; the clock is still produced
    some ()
  else
    some ()

/-- The boot-time monotonic clock selection as composed from `CLOCK` and
`TSC_CLOCK`. -/
def bootClock (hasInvariantTsc hpetPresent : Bool) : ClockSrc :=
  selectClock (tscClockInit hasInvariantTsc)
    (if hpetPresent then some () else none)

/-- From `u64` wrapping subtraction, for operands below `2 ^ 64`. -/
def wsub (a b : Nat) : Nat := (a + 2 ^ 64 - b) % 2 ^ 64

/-- From `calibrate`, `chip.rs` lines 39-65: for each duration of `iter_ms = [10,
20]` run `tries = 3` trials; each trial reads the target counter before and
after a cycle of the calibration clock and the minimum delta per duration is
kept in `best` (initialised to `u64::MAX`); the result is
`(best[1] - best[0]) / (iter_ms[1] - iter_ms[0])`.  The counter reads of
trial `j` for duration index `i` are the parameters `startRead i j` and
`endRead i j` (u64 values). -/
def calibrate (startRead endRead : Nat → Nat → Nat) : Nat :=
  let tries := 3
  let iter_ms : List Nat := [10, 20]
  let best :=
    iter_ms.enum.foldl
      (fun best p =>
        (List.range tries).foldl
          (fun b j =>
            b.set p.1 (min (b.getD p.1 0) (wsub (endRead p.1 j) (startRead p.1 j))))
          best)
      [2 ^ 64 - 1, 2 ^ 64 - 1]
  wsub (best.getD 1 0) (best.getD 0 0) / (iter_ms.getD 1 0 - iter_ms.getD 0 0)

theorem wsub_lt (a b : Nat) : wsub a b < 2 ^ 64 :=
  Nat.mod_lt _ (by norm_num)

theorem wsub_eq_sub (a b : Nat) (hb : b ≤ a) (ha : a < 2 ^ 64) :
    wsub a b = a - b := by
  unfold wsub
  omega

/-- C7 — Calibration runs, for each of the durations 10 ms and 20 ms, exactly
three trials against the calibration clock (HPET preferred, else PIT), keeps
the minimum tick delta per duration, and returns
`(best₂₀ − best₁₀) / (20 − 10)` kHz. -/
theorem calibrate_spec (startRead endRead : Nat → Nat → Nat)
    (d : Nat → Nat → Nat)
    (hd : ∀ i j, d i j = wsub (endRead i j) (startRead i j))
    (hle : min (d 0 0) (min (d 0 1) (d 0 2)) ≤
      min (d 1 0) (min (d 1 1) (d 1 2))) :
    calibrate startRead endRead =
      (min (d 1 0) (min (d 1 1) (d 1 2)) -
        min (d 0 0) (min (d 0 1) (d 0 2))) / (20 - 10) ∧
    selectCalibClock (some ()) = .hpet ∧ selectCalibClock none = .pit := by
  refine ⟨?_, rfl, rfl⟩
  have e : calibrate startRead endRead =
      wsub
        (min (min (min (2 ^ 64 - 1) (wsub (endRead 1 0) (startRead 1 0)))
            (wsub (endRead 1 1) (startRead 1 1)))
          (wsub (endRead 1 2) (startRead 1 2)))
        (min (min (min (2 ^ 64 - 1) (wsub (endRead 0 0) (startRead 0 0)))
            (wsub (endRead 0 1) (startRead 0 1)))
          (wsub (endRead 0 2) (startRead 0 2))) / (20 - 10) := rfl
  rw [e, ← hd 0 0, ← hd 0 1, ← hd 0 2, ← hd 1 0, ← hd 1 1, ← hd 1 2]
  have hb : ∀ i j, d i j < 2 ^ 64 := fun i j => by
    rw [hd]; exact wsub_lt _ _
  have hM : ∀ x, x < 2 ^ 64 → min (2 ^ 64 - 1) x = x := fun x hx =>
    Nat.min_eq_right (by omega)
  rw [hM _ (hb 1 0), hM _ (hb 0 0), min_assoc (d 1 0), min_assoc (d 0 0)]
  have hb1 : min (d 1 0) (min (d 1 1) (d 1 2)) < 2 ^ 64 :=
    lt_of_le_of_lt (min_le_left _ _) (hb 1 0)
  rw [wsub_eq_sub _ _ hle hb1]

/-- Witness for C7: constant-free trial reads with deltas 10000..10002 and
20000..20002; the reported frequency is (20000 − 10000) / 10 kHz. -/
theorem calibrate_witness :
    calibrate (fun _ _ => 0) (fun i j => 10000 * (i + 1) + j) =
      (min (wsub 20000 0) (min (wsub 20001 0) (wsub 20002 0)) -
        min (wsub 10000 0) (min (wsub 10001 0) (wsub 10002 0))) / (20 - 10) ∧
    selectCalibClock (some ()) = .hpet ∧ selectCalibClock none = .pit :=
  calibrate_spec (fun _ _ => 0) (fun i j => 10000 * (i + 1) + j)
    (fun i j => wsub (10000 * (i + 1) + j) 0) (fun _ _ => rfl) (by decide)

/-- C8 counterexample — the claim "the TSC is selected only if it is
invariant, else the HPET" is false on the code: with a non-invariant TSC and
an HPET present, the selected boot clock is still the TSC (`TSC_CLOCK` is
constructed unconditionally; non-invariance only logs a warning). -/
theorem boot_clock_counterexample :
    bootClock false true = .tsc ∧ ¬ bootClock false true = .hpet := by
  constructor <;> decide

/-- C8 amended — the `CLOCK` selection prefers the TSC clock when its static
yields one, else the HPET, else the PIT; but since `TSC_CLOCK` is constructed
unconditionally (invariance only gates a log warning), the boot-time
monotonic clock is always the TSC, for every invariance/HPET combination. -/
theorem boot_clock_selection (hasInvariantTsc hpetPresent : Bool) :
    bootClock hasInvariantTsc hpetPresent = .tsc ∧
    selectClock none (some ()) = .hpet ∧
    selectClock none none = .pit := by
  refine ⟨?_, rfl, rfl⟩
  cases hasInvariantTsc <;> rfl

end Clk

namespace Send

/-- A kernel object as seen by `HandleMap::send`: either a channel endpoint
or any other object.  Modelled from the spec (§4.6, §3 "Handle object"):
`Channel` itself lives in `sched/ipc`, absent from the tree; a channel
endpoint is identified by the two-ended channel it belongs to (`pair`) and
which end it is (`ep`); `send` is the SEND feature bit of the object. -/
inductive Obj where
  | channel (pair : Nat) (ep : Bool) (send : Bool)
  | plain (send : Bool)
deriving DecidableEq, Repr

/-- From `Ref::is_send`: the SEND feature bit ("SEND means movable across tasks"). -/
def isSend : Obj → Bool
  | .channel _ _ s => s
  | .plain s => s

/-- From `value.downcast_ref::<Channel>()`: succeeds exactly on channels. -/
def downcastChannel : Obj → Option (Nat × Bool)
  | .channel p e _ => some (p, e)
  | .plain _ => none

/-- Modelled from the spec: `Channel::peer_eq` (absent from the tree).  The
spec has `send` reject "the peer of `src_channel` (prevents a channel from
being sent down itself, which would leak)" and scenario 5 demands that
sending a channel down itself returns `EPERM`, so the relation holds exactly
when the two endpoints belong to the same two-ended channel. -/
def peer_eq (c src : Nat × Bool) : Bool := c.1 == src.1

/-- The check closure passed to `List::split` by `HandleMap::send`, `hdl.rs`
lines 157-161.  The arm order of the source `match` is kept: a channel is
checked only against `peer_eq` (its SEND feature is never consulted); the
SEND check applies only to the `Err(_)` arm, i.e. to non-channel objects. -/
def sendCheck (src : Nat × Bool) (value : Obj) : Except Hdl.Error Unit :=
  match downcastChannel value with
  | some chan => if peer_eq chan src then .error .EPERM else .ok ()
  | none => if ¬ isSend value then .error .EPERM else .ok ()

/-- Decoding a handle to its object: the composition of `HandleMap::decode`
with the arena lookup, with the handle represented by its decoded slot
index (the XOR/bit packing is the `Hdl` namespace).  A dead slot is
`EINVAL`. -/
def decodeSlot (slots : List (Option Obj)) (idx : Nat) : Except Hdl.Error Obj :=
  match slots.getD idx none with
  | some o => .ok o
  | none => .error .EINVAL

/-- Modelled from the spec: `List::split` (in the absent `node.rs`) detaches
the decoded objects into a portable list, applying the check to each; the
detached slots are cleared. -/
def split (slots : List (Option Obj)) (handles : List Nat) (src : Nat × Bool) :
    Except Hdl.Error (List Obj × List (Option Obj)) :=
  match handles with
  | [] => .ok ([], slots)
  | h :: rest =>
    match decodeSlot slots h with
    | .error e => .error e
    | .ok o =>
      match sendCheck src o with
      | .error e => .error e
      | .ok _ =>
        match split (slots.set h none) rest src with
        | .error e => .error e
        | .ok (objs, slots') => .ok (o :: objs, slots')

/-- From `HandleMap::send`, `hdl.rs` lines 148-164: an empty handle list yields an
empty portable list; otherwise the decode-and-split runs under the map lock
with pre-emption disabled ("to preserve snapshot consistency", spec §4.6), so
a failed call leaves the map unchanged. -/
def send (slots : List (Option Obj)) (handles : List Nat) (src : Nat × Bool) :
    Except Hdl.Error (List Obj) × List (Option Obj) :=
  if handles.isEmpty then (.ok [], slots)
  else
    match split slots handles src with
    | .error e => (.error e, slots)
    | .ok (objs, slots') => (.ok objs, slots')

/-- C5 counterexample — the claim "the call fails with EPERM if any listed
object lacks the SEND feature" is false on the code: a SEND-less channel that
is not of the source channel pair passes the check (the `match` arm that
consults `is_send` only applies to non-channel objects) and is detached
successfully. -/
theorem send_counterexample :
    send [some (.channel 1 false false)] [0] (0, false) =
      (.ok [.channel 1 false false], [none]) ∧
    isSend (.channel 1 false false) = false := by
  constructor <;> rfl

/-- C5 amended — `send` detaches the listed objects into a portable list and
fails with `EPERM` when a listed object is a channel endpoint of the source
channel pair (in particular the source channel itself, so sending a channel
down itself returns `EPERM` and the map — hence the channel — is left
untouched) or a non-channel object lacking SEND; a channel endpoint of a
different pair is never SEND-checked. -/
theorem send_spec (slots : List (Option Obj)) (rest : List Nat) (idx : Nat)
    (src : Nat × Bool) :
    (∀ pair ep s, decodeSlot slots idx = .ok (.channel pair ep s) →
      pair = src.1 →
      send slots (idx :: rest) src = (.error .EPERM, slots)) ∧
    (decodeSlot slots idx = .ok (.plain false) →
      send slots (idx :: rest) src = (.error .EPERM, slots)) ∧
    (∀ pair ep s, pair ≠ src.1 →
      sendCheck src (.channel pair ep s) = .ok ()) ∧
    (∀ o, decodeSlot slots idx = .ok o → sendCheck src o = .ok () →
      send slots [idx] src = (.ok [o], slots.set idx none)) := by
  refine ⟨?_, ?_, ?_, ?_⟩
  · intro pair ep s hdec hpair
    subst hpair
    simp [send, split, hdec, sendCheck, downcastChannel, peer_eq]
  · intro hdec
    simp [send, split, hdec, sendCheck, downcastChannel, isSend]
  · intro pair ep s hne
    simp [sendCheck, downcastChannel, peer_eq, hne]
  · intro o hdec hchk
    simp [send, split, hdec, hchk]

/-- Witness for the amended C5: sending the source channel down itself
returns `EPERM` and leaves the map unchanged. -/
theorem send_spec_witness :
    send [some (.channel 4 true true)] [0] (4, true) =
      (.error .EPERM, [some (.channel 4 true true)]) :=
  (send_spec [some (.channel 4 true true)] [] 0 (4, true)).1 4 true true rfl rfl

end Send

namespace Space

/-- From `core::alloc::Layout`: size and alignment. -/
structure Layout where
  size : Nat
  align : Nat
deriving DecidableEq, Repr

/-- A half-open virtual address range `lo..hi`. -/
structure VRange where
  lo : Nat
  hi : Nat
deriving DecidableEq, Repr

/-- The allocation record `BTreeMap<LAddr, Layout>` as an association list
with unique keys. -/
def recLookup (r : List (Nat × Layout)) (k : Nat) : Option Layout :=
  (r.find? (fun p => p.1 == k)).map (·.2)

/-- From `BTreeMap::remove`. -/
def recRemove (r : List (Nat × Layout)) (k : Nat) : List (Nat × Layout) :=
  r.filter (fun p => !(p.1 == k))

/-- Two ranges touch no common address. -/
def RDisjoint (a b : VRange) : Prop := a.hi ≤ b.lo ∨ b.hi ≤ a.lo

instance (a b : VRange) : Decidable (RDisjoint a b) := by
  unfold RDisjoint
  infer_instance

/-- From `RangeSet` overlap test used by `insert`. -/
def overlaps (a b : VRange) : Bool := decide (¬ RDisjoint a b)

/-- Modelled from the spec: `RangeSet::neighbors(virt)` (crate
`collection_ex`, absent from the tree) returns the free range ending exactly
at `virt.lo` and the free range starting exactly at `virt.hi` — the
"adjacent free neighbours" the deallocated range is coalesced with. -/
def rsNeighbors (free : List VRange) (v : VRange) :
    Option VRange × Option VRange :=
  (free.find? (fun r => r.hi == v.lo), free.find? (fun r => r.lo == v.hi))

/-- Modelled from the spec: `RangeSet::remove(lo)` removes the range that
starts at `lo` (ranges in the set are disjoint, so the start is a key). -/
def rsRemove (free : List VRange) (k : Nat) : List VRange :=
  free.filter (fun r => !(r.lo == k))

/-- Modelled from the spec: `RangeSet::insert` fails when the new range
overlaps a member (the set keeps disjoint ranges). -/
def rsInsert (free : List VRange) (v : VRange) : Except Unit (List VRange) :=
  if free.any (fun r => overlaps r v) then .error () else .ok (v :: free)

/-- The address-space state `Space::dealloc` touches: the allocation record
and the free-range set. -/
structure SpaceState where
  record : List (Nat × Layout)
  free : List VRange
deriving DecidableEq, Repr

/-- From `Space::dealloc`, `space.rs` lines 240-287.  The block `b` is its base
address `base` and `Layout::for_value(&*b)` is `layout` (so the virtual range
is `base .. base + layout.size`).  The page-table side is the `unmaps`
parameter (`self.arch.unmaps`), returning the physical start for ranges
mapped by a single contiguous `maps`.  The result records the physical
address freed back to the allocator (`None` when `free_phys` is unset or no
physical start was returned).

The record verification removes the entry at `base` and, on a layout
mismatch, re-inserts it unchanged (extensionally the untouched map, returned
here as `s` itself); on a match the removal stands even if `unmaps` then
fails.  On success the range, widened to its adjacent free neighbours (which
are removed), is inserted back into the free set. -/
def dealloc (unmaps : VRange → Except Unit (Option Nat)) (s : SpaceState)
    (base : Nat) (layout : Layout) (freePhys : Bool) :
    Except String (Option Nat) × SpaceState :=
  let virt : VRange := ⟨base, base + layout.size⟩
  match recLookup s.record base with
  | none => (.error ("Invalid memory block"), s)
  | some l =>
    if layout ≠ l then
      (.error ("Invalid memory block"), s)
    else
      let record' := recRemove s.record base
      match unmaps virt with
      | .error _ => (.error ("Paging error"), { s with record := record' })
      | .ok phys =>
        let freed := if freePhys then phys else none
        let nbs := rsNeighbors s.free virt
        let pr :=
          match nbs.1 with
          | some p => ((⟨p.lo, virt.hi⟩ : VRange), rsRemove s.free p.lo)
          | none => (virt, s.free)
        let qr :=
          match nbs.2 with
          | some q => ((⟨pr.1.lo, q.hi⟩ : VRange), rsRemove pr.2 q.lo)
          | none => pr
        match rsInsert qr.2 qr.1 with
        | .error _ => (.error ("Occupied range"), { record := record', free := qr.2 })
        | .ok free' => (.ok freed, { record := record', free := free' })

/-- The free-range-set invariant (spec §3): ranges are disjoint and
non-empty. -/
def WF (free : List VRange) : Prop :=
  free.Pairwise RDisjoint ∧ ∀ r ∈ free, r.lo < r.hi

/-- An address is covered by the free set. -/
def covers (free : List VRange) (a : Nat) : Prop :=
  ∃ r ∈ free, r.lo ≤ a ∧ a < r.hi

theorem find?_hi_some {free : List VRange} {x : Nat} {p : VRange}
    (h : free.find? (fun r => r.hi == x) = some p) : p ∈ free ∧ p.hi = x := by
  have hm := List.mem_of_find?_eq_some h
  have hp := List.find?_some h
  simp only [beq_iff_eq] at hp
  exact ⟨hm, hp⟩

theorem find?_lo_some {free : List VRange} {x : Nat} {p : VRange}
    (h : free.find? (fun r => r.lo == x) = some p) : p ∈ free ∧ p.lo = x := by
  have hm := List.mem_of_find?_eq_some h
  have hp := List.find?_some h
  simp only [beq_iff_eq] at hp
  exact ⟨hm, hp⟩

theorem find?_hi_none {free : List VRange} {x : Nat}
    (h : free.find? (fun r => r.hi == x) = none) : ∀ r ∈ free, r.hi ≠ x := by
  intro r hr
  have := List.find?_eq_none.mp h r hr
  simpa using this

theorem find?_lo_none {free : List VRange} {x : Nat}
    (h : free.find? (fun r => r.lo == x) = none) : ∀ r ∈ free, r.lo ≠ x := by
  intro r hr
  have := List.find?_eq_none.mp h r hr
  simpa using this

theorem mem_rsRemove {free : List VRange} {k : Nat} {r : VRange} :
    r ∈ rsRemove free k ↔ r ∈ free ∧ r.lo ≠ k := by
  simp [rsRemove, List.mem_filter]

theorem eq_of_lo_eq {free : List VRange} (hwf : WF free) {r p : VRange}
    (hr : r ∈ free) (hp : p ∈ free) (h : r.lo = p.lo) : r = p := by
  by_contra hne
  have hd : RDisjoint r p :=
    hwf.1.forall (fun _ _ hab => hab.symm) hr hp hne
  have h1 := hwf.2 r hr
  have h2 := hwf.2 p hp
  rcases hd with hd | hd <;> omega

theorem rsInsert_ok (free2 : List VRange) (v : VRange)
    (h : ∀ r ∈ free2, RDisjoint r v) : rsInsert free2 v = .ok (v :: free2) := by
  unfold rsInsert
  rw [if_neg]
  intro hany
  rw [List.any_eq_true] at hany
  obtain ⟨r, hr, hov⟩ := hany
  simp only [overlaps, decide_eq_true_iff] at hov
  exact hov (h r hr)

/-- C6 — `Space::dealloc(b, free_phys)`: if the base address and layout of
`b` do not exactly match a recorded allocation, the call fails and both the
allocation record and the free set are unchanged; otherwise the range is
unmapped, the physical backing is handed back exactly when `free_phys` is
set, the record entry is removed, and the virtual range is re-inserted into
the free-range set coalesced with its adjacent free neighbours: some member
of the new free set covers the whole deallocated range, the new free set
covers exactly the old coverage plus that range, and the merged member is
adjacent to no other member. -/
theorem space_dealloc_spec (unmaps : VRange → Except Unit (Option Nat))
    (s : SpaceState) (base : Nat) (layout : Layout) (freePhys : Bool) :
    (recLookup s.record base = none →
      dealloc unmaps s base layout freePhys =
        (.error ("Invalid memory block"), s)) ∧
    (∀ l, recLookup s.record base = some l → layout ≠ l →
      dealloc unmaps s base layout freePhys =
        (.error ("Invalid memory block"), s)) ∧
    (∀ phys, recLookup s.record base = some layout →
      unmaps ⟨base, base + layout.size⟩ = .ok phys →
      WF s.free → 0 < layout.size →
      (∀ r ∈ s.free, RDisjoint r ⟨base, base + layout.size⟩) →
      (∀ r1 ∈ s.free, ∀ r2 ∈ s.free, r1.hi ≠ r2.lo) →
      ∃ m free2,
        dealloc unmaps s base layout freePhys =
          (.ok (if freePhys then phys else none),
            { record := recRemove s.record base, free := m :: free2 }) ∧
        (∀ a, base ≤ a → a < base + layout.size → m.lo ≤ a ∧ a < m.hi) ∧
        (∀ a, covers (m :: free2) a ↔
          (covers s.free a ∨ (base ≤ a ∧ a < base + layout.size))) ∧
        (∀ r ∈ m :: free2, r ≠ m → r.hi ≠ m.lo ∧ m.hi ≠ r.lo)) := by
  have hsymm : Symmetric RDisjoint := fun _ _ hab => hab.symm
  refine ⟨?_, ?_, ?_⟩
  · intro h
    simp [dealloc, h]
  · intro l hl hne
    simp [dealloc, hl, hne]
  · intro phys hl hun hwf hsz hdisj hcoal
    cases hpre : s.free.find? (fun r => r.hi == base) with
    | some p =>
      obtain ⟨hpmem, hphi⟩ := find?_hi_some hpre
      have hple := hwf.2 p hpmem
      cases hsuf : s.free.find? (fun r => r.lo == base + layout.size) with
      | some q =>
        obtain ⟨hqmem, hqlo⟩ := find?_lo_some hsuf
        have hqle := hwf.2 q hqmem
        have hsub2 : ∀ r ∈ rsRemove (rsRemove s.free p.lo) q.lo,
            r ∈ s.free ∧ r.lo ≠ p.lo ∧ r.lo ≠ q.lo := by
          intro r hr
          rw [mem_rsRemove] at hr
          obtain ⟨hr1, hr2⟩ := hr
          rw [mem_rsRemove] at hr1
          exact ⟨hr1.1, hr1.2, hr2⟩
        have hdis2 : ∀ r ∈ rsRemove (rsRemove s.free p.lo) q.lo,
            RDisjoint r ⟨p.lo, q.hi⟩ := by
          intro r hr
          obtain ⟨hrf, hrp, hrq⟩ := hsub2 r hr
          have hdp : RDisjoint r p := by
            rcases eq_or_ne r p with h | h
            · exact absurd (congrArg VRange.lo h) hrp
            · exact hwf.1.forall hsymm hrf hpmem h
          have hdq : RDisjoint r q := by
            rcases eq_or_ne r q with h | h
            · exact absurd (congrArg VRange.lo h) hrq
            · exact hwf.1.forall hsymm hrf hqmem h
          have hdv := hdisj r hrf
          have hrne := hwf.2 r hrf
          simp only [RDisjoint] at hdp hdq hdv ⊢
          omega
        refine ⟨⟨p.lo, q.hi⟩, rsRemove (rsRemove s.free p.lo) q.lo, ?_, ?_, ?_, ?_⟩
        · simp only [dealloc, hl, ne_eq, not_true_eq_false, if_false, hun,
            rsNeighbors, hpre, hsuf]
          rw [rsInsert_ok _ _ hdis2]
        · intro a ha1 ha2
          dsimp only
          omega
        · intro a
          constructor
          · rintro ⟨r, hr, hra⟩
            rcases List.mem_cons.mp hr with rfl | hr2
            · dsimp only at hra
              by_cases hap : a < p.hi
              · exact Or.inl ⟨p, hpmem, by omega, hap⟩
              · by_cases haq : a < q.lo
                · exact Or.inr ⟨by omega, by omega⟩
                · exact Or.inl ⟨q, hqmem, by omega, by omega⟩
            · obtain ⟨hrf, _, _⟩ := hsub2 r hr2
              exact Or.inl ⟨r, hrf, hra.1, hra.2⟩
          · rintro (⟨r, hr, hra⟩ | ⟨h1, h2⟩)
            · by_cases hrp : r.lo = p.lo
              · have heq : r = p := eq_of_lo_eq hwf hr hpmem hrp
                subst heq
                exact ⟨⟨r.lo, q.hi⟩, List.mem_cons_self _ _, by dsimp only; omega⟩
              · by_cases hrq : r.lo = q.lo
                · have heq : r = q := eq_of_lo_eq hwf hr hqmem hrq
                  subst heq
                  exact ⟨⟨p.lo, r.hi⟩, List.mem_cons_self _ _, by dsimp only; omega⟩
                · exact ⟨r, List.mem_cons_of_mem _
                    (mem_rsRemove.mpr ⟨mem_rsRemove.mpr ⟨hr, hrp⟩, hrq⟩), hra⟩
            · exact ⟨⟨p.lo, q.hi⟩, List.mem_cons_self _ _, by dsimp only; omega⟩
        · intro r hr hrne
          rcases List.mem_cons.mp hr with rfl | hr2
          · exact absurd rfl hrne
          · obtain ⟨hrf, _, _⟩ := hsub2 r hr2
            exact ⟨hcoal r hrf p hpmem, hcoal q hqmem r hrf⟩
      | none =>
        have hqn := find?_lo_none hsuf
        have hsub2 : ∀ r ∈ rsRemove s.free p.lo, r ∈ s.free ∧ r.lo ≠ p.lo :=
          fun r hr => mem_rsRemove.mp hr
        have hdis2 : ∀ r ∈ rsRemove s.free p.lo,
            RDisjoint r ⟨p.lo, base + layout.size⟩ := by
          intro r hr
          obtain ⟨hrf, hrp⟩ := hsub2 r hr
          have hdp : RDisjoint r p := by
            rcases eq_or_ne r p with h | h
            · exact absurd (congrArg VRange.lo h) hrp
            · exact hwf.1.forall hsymm hrf hpmem h
          have hdv := hdisj r hrf
          have hrne := hwf.2 r hrf
          simp only [RDisjoint] at hdp hdv ⊢
          omega
        refine ⟨⟨p.lo, base + layout.size⟩, rsRemove s.free p.lo, ?_, ?_, ?_, ?_⟩
        · simp only [dealloc, hl, ne_eq, not_true_eq_false, if_false, hun,
            rsNeighbors, hpre, hsuf]
          rw [rsInsert_ok _ _ hdis2]
        · intro a ha1 ha2
          dsimp only
          omega
        · intro a
          constructor
          · rintro ⟨r, hr, hra⟩
            rcases List.mem_cons.mp hr with rfl | hr2
            · dsimp only at hra
              by_cases hap : a < p.hi
              · exact Or.inl ⟨p, hpmem, by omega, hap⟩
              · exact Or.inr ⟨by omega, by omega⟩
            · obtain ⟨hrf, _⟩ := hsub2 r hr2
              exact Or.inl ⟨r, hrf, hra.1, hra.2⟩
          · rintro (⟨r, hr, hra⟩ | ⟨h1, h2⟩)
            · by_cases hrp : r.lo = p.lo
              · have heq : r = p := eq_of_lo_eq hwf hr hpmem hrp
                subst heq
                exact ⟨⟨r.lo, base + layout.size⟩, List.mem_cons_self _ _,
                  by dsimp only; omega⟩
              · exact ⟨r, List.mem_cons_of_mem _
                  (mem_rsRemove.mpr ⟨hr, hrp⟩), hra⟩
            · exact ⟨⟨p.lo, base + layout.size⟩, List.mem_cons_self _ _,
                by dsimp only; omega⟩
        · intro r hr hrne
          rcases List.mem_cons.mp hr with rfl | hr2
          · exact absurd rfl hrne
          · obtain ⟨hrf, _⟩ := hsub2 r hr2
            exact ⟨hcoal r hrf p hpmem, fun h => hqn r hrf h.symm⟩
    | none =>
      have hpn := find?_hi_none hpre
      cases hsuf : s.free.find? (fun r => r.lo == base + layout.size) with
      | some q =>
        obtain ⟨hqmem, hqlo⟩ := find?_lo_some hsuf
        have hqle := hwf.2 q hqmem
        have hsub2 : ∀ r ∈ rsRemove s.free q.lo, r ∈ s.free ∧ r.lo ≠ q.lo :=
          fun r hr => mem_rsRemove.mp hr
        have hdis2 : ∀ r ∈ rsRemove s.free q.lo,
            RDisjoint r ⟨base, q.hi⟩ := by
          intro r hr
          obtain ⟨hrf, hrq⟩ := hsub2 r hr
          have hdq : RDisjoint r q := by
            rcases eq_or_ne r q with h | h
            · exact absurd (congrArg VRange.lo h) hrq
            · exact hwf.1.forall hsymm hrf hqmem h
          have hdv := hdisj r hrf
          have hrne := hwf.2 r hrf
          simp only [RDisjoint] at hdq hdv ⊢
          omega
        refine ⟨⟨base, q.hi⟩, rsRemove s.free q.lo, ?_, ?_, ?_, ?_⟩
        · simp only [dealloc, hl, ne_eq, not_true_eq_false, if_false, hun,
            rsNeighbors, hpre, hsuf]
          rw [rsInsert_ok _ _ hdis2]
        · intro a ha1 ha2
          dsimp only
          omega
        · intro a
          constructor
          · rintro ⟨r, hr, hra⟩
            rcases List.mem_cons.mp hr with rfl | hr2
            · dsimp only at hra
              by_cases haq : a < q.lo
              · exact Or.inr ⟨by omega, by omega⟩
              · exact Or.inl ⟨q, hqmem, by omega, by omega⟩
            · obtain ⟨hrf, _⟩ := hsub2 r hr2
              exact Or.inl ⟨r, hrf, hra.1, hra.2⟩
          · rintro (⟨r, hr, hra⟩ | ⟨h1, h2⟩)
            · by_cases hrq : r.lo = q.lo
              · have heq : r = q := eq_of_lo_eq hwf hr hqmem hrq
                subst heq
                exact ⟨⟨base, r.hi⟩, List.mem_cons_self _ _, by dsimp only; omega⟩
              · exact ⟨r, List.mem_cons_of_mem _
                  (mem_rsRemove.mpr ⟨hr, hrq⟩), hra⟩
            · exact ⟨⟨base, q.hi⟩, List.mem_cons_self _ _, by dsimp only; omega⟩
        · intro r hr hrne
          rcases List.mem_cons.mp hr with rfl | hr2
          · exact absurd rfl hrne
          · obtain ⟨hrf, _⟩ := hsub2 r hr2
            exact ⟨hpn r hrf, hcoal q hqmem r hrf⟩
      | none =>
        have hqn := find?_lo_none hsuf
        have hdis2 : ∀ r ∈ s.free, RDisjoint r ⟨base, base + layout.size⟩ :=
          hdisj
        refine ⟨⟨base, base + layout.size⟩, s.free, ?_, ?_, ?_, ?_⟩
        · simp only [dealloc, hl, ne_eq, not_true_eq_false, if_false, hun,
            rsNeighbors, hpre, hsuf]
          rw [rsInsert_ok _ _ hdis2]
        · intro a ha1 ha2
          exact ⟨ha1, ha2⟩
        · intro a
          constructor
          · rintro ⟨r, hr, hra⟩
            rcases List.mem_cons.mp hr with rfl | hr2
            · exact Or.inr ⟨hra.1, hra.2⟩
            · exact Or.inl ⟨r, hr2, hra.1, hra.2⟩
          · rintro (⟨r, hr, hra⟩ | ⟨h1, h2⟩)
            · exact ⟨r, List.mem_cons_of_mem _ hr, hra⟩
            · exact ⟨⟨base, base + layout.size⟩, List.mem_cons_self _ _, h1, h2⟩
        · intro r hr hrne
          rcases List.mem_cons.mp hr with rfl | hr2
          · exact absurd rfl hrne
          · exact ⟨hpn r hr2, fun h => hqn r hr2 h.symm⟩

/-- Witness for C6: deallocating the recorded page `4096..8192` from a space
whose free set holds both neighbours `0..4096` and `8192..12288`. -/
theorem space_dealloc_witness :
    ∃ m free2,
      dealloc (fun _ => .ok (some 12345))
          { record := [(4096, ⟨4096, 4096⟩)],
            free := [⟨0, 4096⟩, ⟨8192, 12288⟩] }
          4096 ⟨4096, 4096⟩ true =
        (.ok (if true then some 12345 else none),
          { record := recRemove [(4096, ⟨4096, 4096⟩)] 4096,
            free := m :: free2 }) ∧
      (∀ a, 4096 ≤ a → a < 8192 → m.lo ≤ a ∧ a < m.hi) ∧
      (∀ a, covers (m :: free2) a ↔
        (covers [⟨0, 4096⟩, ⟨8192, 12288⟩] a ∨ (4096 ≤ a ∧ a < 8192))) ∧
      (∀ r ∈ m :: free2, r ≠ m → r.hi ≠ m.lo ∧ m.hi ≠ r.lo) :=
  (space_dealloc_spec (fun _ => .ok (some 12345))
      { record := [(4096, ⟨4096, 4096⟩)], free := [⟨0, 4096⟩, ⟨8192, 12288⟩] }
      4096 ⟨4096, 4096⟩ true).2.2 (some 12345)
    (by decide) rfl ⟨by decide, by decide⟩ (by decide) (by decide) (by decide)

end Space
